import Mathlib

/-! Shallow embedding of `display.py` (terminal ASCII-video player).

Strings are modelled as `List Char`; Python floats as exact rationals
(every scale value appearing in the verified claims is exactly
representable in binary floating point, so the rational model agrees);
Python `int(...)` as `intOfStr` (optional sign followed by decimal
digits — the only shapes this program produces or consumes); a Python
`IndexError` as `Option.none`. -/

/-- Foreground color values as built by `parse_ansi_line`:
the `("truecolor", r, g, b)` and `("ansi256", idx)` tuples of the source;
the Python `None` state is `Option.none` around this type. -/
inductive Fg where
  | truecolor (r g b : ℤ)
  | ansi256 (idx : ℤ)
deriving DecidableEq

/-- The `RESET` constant `"\x1b[0m"` (line 21). -/
def RESET : List Char := ['\x1b', '[', '0', 'm']

/-- The `HIDE_CURSOR` constant `"\x1b[?25l"` (line 22). -/
def HIDE_CURSOR : List Char := ['\x1b', '[', '?', '2', '5', 'l']

/-- The `SHOW_CURSOR` constant `"\x1b[?25h"` (line 23). -/
def SHOW_CURSOR : List Char := ['\x1b', '[', '?', '2', '5', 'h']

/-- The `CLS` constant `"\x1b[2J"` (line 24). -/
def CLS : List Char := ['\x1b', '[', '2', 'J']

/-- The `HOME` constant `"\x1b[H"` (line 25). -/
def HOME : List Char := ['\x1b', '[', 'H']

/-- Whitespace as stripped by Python `int()` on ASCII text: tab through
carriage return (9–13) and file/group/record/unit separators through the
space character (28–32). -/
def isPySpace (c : Char) : Bool :=
  (9 ≤ c.toNat && c.toNat ≤ 13) || (28 ≤ c.toNat && c.toNat ≤ 32)

/-- Leading and trailing whitespace stripping as done by Python `int()`. -/
def stripSpaces (s : List Char) : List Char :=
  ((s.dropWhile isPySpace).reverse.dropWhile isPySpace).reverse

/-- Accumulator loop for decimal digit parsing after the first digit: a run
of digits in which a single underscore may separate two digits (Python
numeric-literal grammar). -/
def parseDigitsGo : List Char → ℕ → Option ℕ
  | [], acc => some acc
  | c :: rest, acc =>
      if c.isDigit then parseDigitsGo rest (acc * 10 + (c.toNat - 48))
      else if c = '_' then
        if rest.head?.any Char.isDigit then parseDigitsGo rest acc else none
      else none

/-- Digit run of Python `int()` after the optional sign: must start with a
digit; underscores are only allowed between digits. -/
def parseIntBody (s : List Char) : Option ℕ :=
  match s with
  | [] => none
  | c :: _ => if c.isDigit then parseDigitsGo s 0 else none

/-- Model of Python `int(s)` on ASCII text: strip whitespace, then an
optional single sign followed by decimal digits with single underscores
between digits. Non-ASCII forms `int()` also accepts (Unicode decimal
digits and non-ASCII whitespace) are outside the modelled alphabet; the
theorems that depend on `int()` failing therefore restrict their parameter
text to the ASCII range, where this model agrees with `int()` exactly. -/
def intOfStr (s : List Char) : Option ℤ :=
  match stripSpaces s with
  | [] => none
  | c :: rest =>
      if c = '-' then (parseIntBody rest).map (fun n => -(n : ℤ))
      else if c = '+' then (parseIntBody rest).map (fun n => (n : ℤ))
      else (parseIntBody (c :: rest)).map (fun n => (n : ℤ))

/-- Decimal digits of a natural number, most significant first. -/
def strOfNatGo (n : ℕ) : List Char :=
  if h : n < 10 then [Nat.digitChar n]
  else strOfNatGo (n / 10) ++ [Nat.digitChar (n % 10)]
termination_by n
decreasing_by exact Nat.div_lt_self (by omega) (by norm_num)

/-- Model of Python `str`/f-string interpolation of an integer. -/
def strOfInt (z : ℤ) : List Char :=
  if z < 0 then '-' :: strOfNatGo z.natAbs else strOfNatGo z.toNat

/-- Model of Python `params.split(";")` (line 43). -/
def splitSemis : List Char → List (List Char)
  | [] => [[]]
  | c :: rest =>
      if c = ';' then [] :: splitSemis rest
      else
        match splitSemis rest with
        | [] => [[c]]
        | p :: ps => (c :: p) :: ps

/-- Effect of one terminated SGR parameter list on the active color
(`parse_ansi_line`, lines 44–57). -/
def applySGR (parts : List (List Char)) (active : Option Fg) : Option Fg :=
  if parts = [['0']] then none
  else if 3 ≤ parts.length ∧ parts.getD 0 [] = ['3', '8'] ∧ parts.getD 1 [] = ['5'] then
    match intOfStr (parts.getD 2 []) with
    | some idx => some (.ansi256 idx)
    | none => active
  else if 5 ≤ parts.length ∧ parts.getD 0 [] = ['3', '8'] ∧ parts.getD 1 [] = ['2'] then
    match intOfStr (parts.getD 2 []), intOfStr (parts.getD 3 []), intOfStr (parts.getD 4 []) with
    | some r, some g, some b => some (.truecolor r g b)
    | _, _, _ => active
  else active

/-- Scan forward to the terminating `m` of an SGR sequence
(`parse_ansi_line`, lines 37–41): yields the parameter text and the
remainder after the `m`, or `none` when no `m` occurs before line end. -/
def scanToM : List Char → Option (List Char × List Char)
  | [] => none
  | c :: rest =>
      if c = 'm' then some ([], rest)
      else
        match scanToM rest with
        | none => none
        | some (p, r) => some (c :: p, r)

theorem scanToM_length : ∀ l p r, scanToM l = some (p, r) → r.length < l.length := by
  intro l
  induction l with
  | nil => intro p r h; simp [scanToM] at h
  | cons c rest ih =>
      intro p r h
      by_cases hc : c = 'm'
      · simp [scanToM, hc] at h
        simp [← h.2]
      · simp only [scanToM, hc, if_neg, ite_false] at h
        cases hsc : scanToM rest with
        | none => rw [hsc] at h; simp at h
        | some pr =>
            rw [hsc] at h
            simp at h
            have := ih pr.1 pr.2 (by rw [hsc])
            have hr : r = pr.2 := by rw [← h.2]
            simp [hr]
            omega

/-- Main scanning loop of `parse_ansi_line` (lines 34–64), recursing on the
rest of the line and threading the `active` color. -/
def parse_go : List Char → Option Fg → List Char × List (Option Fg)
  | [], _ => ([], [])
  | c :: rest, active =>
      if c = '\x1b' ∧ rest.head? = some '[' then
        match h : scanToM rest.tail with
        | none => ([], [])
        | some (params, restAfter) =>
            parse_go restAfter (applySGR (if params = [] then [] else splitSemis params) active)
      else if c = '\n' then parse_go rest active
      else
        let r := parse_go rest active
        (c :: r.1, active :: r.2)
termination_by l _ => l.length
decreasing_by
  · have h1 := scanToM_length _ _ _ h
    have h2 : rest.tail.length ≤ rest.length := by cases rest <;> simp
    simp only [List.length_cons]
    omega
  · simp
  · simp

/-- Model of `parse_ansi_line` (lines 28–65): parallel lists of glyphs and
per-glyph foreground colors. -/
def parse_ansi_line (ln : List Char) : List Char × List (Option Fg) := parse_go ln none

/-- Model of `color_code_from_fg` (lines 67–76). -/
def color_code_from_fg (fg : Option Fg) : List Char :=
  match fg with
  | none => []
  | some (.truecolor r g b) =>
      ['\x1b', '[', '3', '8', ';', '2', ';'] ++
        strOfInt r ++ ';' :: strOfInt g ++ ';' :: strOfInt b ++ ['m']
  | some (.ansi256 idx) =>
      ['\x1b', '[', '3', '8', ';', '5', ';'] ++ strOfInt idx ++ ['m']

/-- Floor to a natural number, modelling Python `int(...)` applied to the
nonnegative float values arising in `scale_lines`. -/
def ratToNatFloor (q : ℚ) : ℕ := (⌊q⌋).toNat

/-- Terminal geometry as reported by `shutil.get_terminal_size`. -/
structure TermSize where
  columns : ℕ
  lines : ℕ
deriving DecidableEq

/-- Effective scale computation (`scale_lines`, lines 79–88); the terminal
size the source queries is passed in explicitly. -/
def effScale (fit_to_terminal : Bool) (term : TermSize) (width height : ℕ) (scale : ℚ) : ℚ :=
  if fit_to_terminal then
    let s_w : ℚ := (term.columns : ℚ) / ((max 1 width : ℕ) : ℚ)
    let s_h : ℚ := ((max 1 (term.lines - 1) : ℕ) : ℚ) / ((max 1 height : ℕ) : ℚ)
    let s := min s_w s_h
    if s ≤ 0 then 1 else s
  else max (1 / 100) scale

/-- Inner column loop of `scale_lines` (lines 113–122), iterated over the
target column indices with the `prev_fg` cursor threaded through; a failed
list access is `none`. -/
def scaleRowGo (s : ℚ) (chars_row : List Char) (fgs_row : List (Option Fg)) :
    List ℕ → Option Fg → Option (List Char)
  | [], _ => some []
  | co :: cos, prev_fg =>
      let cs := min (chars_row.length - 1) (ratToNatFloor ((co : ℚ) / s))
      match fgs_row[cs]?, chars_row[cs]? with
      | some fg, some ch =>
          if fg ≠ prev_fg then
            match scaleRowGo s chars_row fgs_row cos fg with
            | some tail =>
                some ((if fg = none then RESET else color_code_from_fg fg) ++ ch :: tail)
            | none => none
          else
            match scaleRowGo s chars_row fgs_row cos prev_fg with
            | some tail => some (ch :: tail)
            | none => none
      | _, _ => none

/-- Body built for one nonempty source row (`scale_lines`, lines 112–124):
the joined parts followed by the unconditional trailing reset. -/
def scale_row (s : ℚ) (chars_row : List Char) (fgs_row : List (Option Fg)) :
    Option (List Char) :=
  let tgt_w_row := max 1 (ratToNatFloor ((chars_row.length : ℚ) * s))
  match scaleRowGo s chars_row fgs_row (List.range tgt_w_row) none with
  | some parts => some (parts ++ RESET)
  | none => none

/-- Outer row loop of `scale_lines` (lines 104–124), iterated over the
target row indices; `parsed[rs]` out of range is the Python `IndexError`,
modelled as `none`. -/
def scaleRows (parsed : List (List Char × List (Option Fg))) (s : ℚ) (src_h : ℕ) :
    List ℕ → Option (List (List Char))
  | [] => some []
  | ro :: ros =>
      let rs := min (src_h - 1) (ratToNatFloor ((ro : ℚ) / s))
      match parsed[rs]? with
      | none => none
      | some row =>
          let rendered :=
            if row.1.length = 0 then some RESET else scale_row s row.1 row.2
          match rendered, scaleRows parsed s src_h ros with
          | some ln, some rest => some (ln :: rest)
          | _, _ => none

/-- Model of `scale_lines` (lines 78–125). `some` is a normal return,
`none` a raised exception. The locals `src_w`/`tgt_w` are computed by the
source but never used (only the per-row widths are), so they are omitted. -/
def scale_lines (lines : List (List Char)) (width height : ℕ) (scale : ℚ)
    (fit_to_terminal : Bool) (term : TermSize) : Option (List (List Char)) :=
  let s := effScale fit_to_terminal term width height scale
  if |s - 1| < 1 / 1000000 then some lines
  else
    let parsed := lines.map parse_ansi_line
    let src_h0 := parsed.length
    let src_h := if src_h0 = 0 then max 1 height else src_h0
    let tgt_h := max 1 (ratToNatFloor ((src_h : ℚ) * s))
    scaleRows parsed s src_h (List.range tgt_h)

/-- Events written to stdout during playback. -/
inductive OutEvent where
  | write (s : List Char)
  | flush
deriving DecidableEq

/-- Command-line switches consumed by the playback phase of `main`. -/
structure Args where
  loop : Bool
  scale : ℚ
  fit : Bool
  no_clear : Bool

/-- How the `while True` playback loop was left. -/
inductive LoopExit where
  | finished
  | interrupted
  | errored
deriving DecidableEq

/-- One-frame records of the input document (`frame.get("lines", [])`). -/
structure Frame where
  lines : List (List Char)

/-- Playback loop of `main` (lines 160–187). `fuel` bounds the number of
iterations the model unrolls (the source loop may run forever under
`--loop`); `interruptAfter = some k` delivers the external
`KeyboardInterrupt` at the top of iteration `k`. Sleeping is not an
output event, so pacing is not modelled. -/
def playLoop (frames : List Frame) (args : Args) (width height : ℕ) (term : TermSize)
    (interruptAfter : Option ℕ) : ℕ → ℕ → ℕ → Option (List OutEvent × LoopExit)
  | 0, _, _ => none
  | fuel + 1, idx, iter =>
      if interruptAfter = some iter then some ([], .interrupted)
      else
        match frames[idx]? with
        | none => some ([], .errored)
        | some frame =>
            let scaled :=
              if args.fit || 1 / 1000000 < |args.scale - 1| then
                scale_lines frame.lines width height args.scale args.fit term
              else some frame.lines
            match scaled with
            | none => some ([], .errored)
            | some lines =>
                let events :=
                  OutEvent.write HOME ::
                    (lines.flatMap fun ln => [OutEvent.write ln, OutEvent.write ['\n']]) ++
                      [OutEvent.flush]
                let idx := idx + 1
                if idx ≥ frames.length then
                  if args.loop then
                    match playLoop frames args width height term interruptAfter fuel 0 (iter + 1) with
                    | none => none
                    | some (tr, ex) => some (events ++ tr, ex)
                  else some (events, .finished)
                else
                  match playLoop frames args width height term interruptAfter fuel idx (iter + 1) with
                  | none => none
                  | some (tr, ex) => some (events ++ tr, ex)

/-- Playback phase of `main` (lines 153–194): terminal setup, the
`try`/`except KeyboardInterrupt`/`finally` around the loop, and the
`finally` cleanup that is appended on every exit (normal, interrupted or
error) before the exception, if any, propagates. `none` means the fuel ran
out before the loop exited. Named `mainPlayback` because Lean reserves the
source's name `main` for executable entry points. -/
def mainPlayback (frames : List Frame) (args : Args) (width height : ℕ) (term : TermSize)
    (interruptAfter : Option ℕ) (fuel : ℕ) : Option (List OutEvent) :=
  let setup :=
    OutEvent.write HIDE_CURSOR ::
      (if args.no_clear then [] else [OutEvent.write CLS]) ++
        [OutEvent.write HOME, OutEvent.flush]
  match playLoop frames args width height term interruptAfter fuel 0 0 with
  | none => none
  | some (tr, _) =>
      some (setup ++ tr ++ [OutEvent.write RESET, OutEvent.write SHOW_CURSOR, OutEvent.flush])

/-- Spec-side helper: number of ESC bytes in a rendered row; each emitted
escape code contains exactly one, so on ESC-free glyphs this counts the
emitted codes. -/
def escCount (l : List Char) : ℕ := l.count '\x1b'

/-- Spec-side helper: how many transition codes the run-length emitter
produces on a cell color sequence from a given previous-color cursor. -/
def transCount : List (Option Fg) → Option Fg → ℕ
  | [], _ => 0
  | f :: fs, prev => (if f ≠ prev then 1 else 0) + transCount fs f

/-- Spec-side helper, following the spec's words: the number of maximal
constant-color runs in a row ("color runs"). -/
def specColorRuns : List (Option Fg) → ℕ
  | [] => 0
  | f :: fs => 1 + transCount fs f

/-- Run-length rendering of (glyph, color) cells from a previous-color
cursor: the exact text the inner loop of `scale_lines` joins for a row,
before the trailing reset. -/
def rleRender : List (Char × Option Fg) → Option Fg → List Char
  | [], _ => []
  | (ch, fg) :: cells, prev =>
      (if fg ≠ prev then (if fg = none then RESET else color_code_from_fg fg) else []) ++
        ch :: rleRender cells fg

/-- Source cell selected for target column `co` by the inner loop of
`scale_lines` (total description, valid when the row is nonempty). -/
def cellAt (s : ℚ) (chars_row : List Char) (fgs_row : List (Option Fg)) (co : ℕ) :
    Char × Option Fg :=
  let cs := min (chars_row.length - 1) (ratToNatFloor ((co : ℚ) / s))
  (chars_row.getD cs ' ', fgs_row.getD cs none)

theorem parse_go_nil (a : Option Fg) : parse_go [] a = ([], []) := by
  simp [parse_go]

theorem parse_go_esc_none (rest' : List Char) (a : Option Fg)
    (hsc : scanToM rest' = none) :
    parse_go ('\x1b' :: '[' :: rest') a = ([], []) := by
  rw [parse_go]
  simp only [List.head?_cons, List.tail_cons, and_self, if_true, Option.some.injEq, if_pos]
  split
  · rfl
  · rename_i params restAfter heq
    rw [hsc] at heq
    cases heq

theorem parse_go_esc_some (rest' params after : List Char) (a : Option Fg)
    (hsc : scanToM rest' = some (params, after)) :
    parse_go ('\x1b' :: '[' :: rest') a =
      parse_go after (applySGR (if params = [] then [] else splitSemis params) a) := by
  rw [parse_go]
  simp only [List.head?_cons, List.tail_cons, and_self, if_true, if_pos]
  split
  · rename_i heq
    rw [hsc] at heq
    cases heq
  · rename_i params' restAfter heq
    rw [hsc] at heq
    simp only [Option.some.injEq, Prod.mk.injEq] at heq
    rw [heq.1, heq.2]

theorem parse_go_cons_esc (rest : List Char) (a : Option Fg) :
    parse_go ('\x1b' :: '[' :: rest) a =
      match scanToM rest with
      | none => ([], [])
      | some (params, after) =>
          parse_go after (applySGR (if params = [] then [] else splitSemis params) a) := by
  cases hsc : scanToM rest with
  | none => rw [parse_go_esc_none rest a hsc]
  | some pr => rw [parse_go_esc_some rest pr.1 pr.2 a (by rw [hsc])]

theorem parse_go_newline (rest : List Char) (a : Option Fg) :
    parse_go ('\n' :: rest) a = parse_go rest a := by
  rw [parse_go]
  simp

theorem parse_go_glyph (c : Char) (rest : List Char) (a : Option Fg)
    (h1 : ¬(c = '\x1b' ∧ rest.head? = some '[')) (h2 : c ≠ '\n') :
    parse_go (c :: rest) a = (c :: (parse_go rest a).1, a :: (parse_go rest a).2) := by
  rw [parse_go]
  simp [h1, h2]

theorem scanToM_eq_none_iff (l : List Char) : scanToM l = none ↔ 'm' ∉ l := by
  induction l with
  | nil => simp [scanToM]
  | cons c rest ih =>
      by_cases hc : c = 'm'
      · simp [scanToM, hc]
      · simp only [scanToM, hc, ite_false, List.mem_cons]
        cases hsc : scanToM rest with
        | none => simp [hsc] at ih; simp [ih, Ne.symm hc]
        | some pr => simp [hsc] at ih; simp [ih, Ne.symm hc]

theorem scanToM_append_m (body rest : List Char) (hb : 'm' ∉ body) :
    scanToM (body ++ 'm' :: rest) = some (body, rest) := by
  induction body with
  | nil => simp [scanToM]
  | cons c cs ih =>
      simp only [List.mem_cons, not_or] at hb
      rw [List.cons_append, scanToM]
      simp [Ne.symm hb.1, ih hb.2]

theorem parse_go_len_aux : ∀ (n : ℕ) (l : List Char), l.length ≤ n → ∀ (a : Option Fg),
    (parse_go l a).1.length = (parse_go l a).2.length := by
  intro n
  induction n with
  | zero =>
      intro l hl a
      have h0 : l = [] := List.eq_nil_of_length_eq_zero (Nat.le_zero.mp hl)
      subst h0
      simp [parse_go_nil]
  | succ n ih =>
      intro l hl a
      cases l with
      | nil => simp [parse_go_nil]
      | cons c rest =>
          by_cases h1 : c = '\x1b' ∧ rest.head? = some '['
          · obtain ⟨hc, hh⟩ := h1
            subst hc
            cases rest with
            | nil => simp at hh
            | cons r0 rest' =>
                simp only [List.head?_cons, Option.some.injEq] at hh
                subst hh
                cases hsc : scanToM rest' with
                | none => rw [parse_go_esc_none rest' a hsc]; rfl
                | some pr =>
                    obtain ⟨params, after⟩ := pr
                    rw [parse_go_esc_some rest' params after a hsc]
                    apply ih
                    have hlen := scanToM_length rest' params after hsc
                    simp only [List.length_cons] at hl
                    omega
          · by_cases h2 : c = '\n'
            · subst h2
              rw [parse_go_newline]
              apply ih
              simp only [List.length_cons] at hl
              omega
            · rw [parse_go_glyph c rest a h1 h2]
              simp only [List.length_cons]
              have := ih rest (by simp only [List.length_cons] at hl; omega) a
              omega

/-- Invariant of the decoder: the glyph and color lists are parallel. -/
theorem parse_ansi_line_len (ln : List Char) :
    (parse_ansi_line ln).1.length = (parse_ansi_line ln).2.length :=
  parse_go_len_aux ln.length ln le_rfl none

theorem scanToM_append_some (l t p r : List Char) (h : scanToM l = some (p, r)) :
    scanToM (l ++ t) = some (p, r ++ t) := by
  induction l generalizing p with
  | nil => simp [scanToM] at h
  | cons c cs ih =>
      by_cases hc : c = 'm'
      · subst hc
        rw [scanToM] at h
        simp only [if_true, Option.some.injEq, Prod.mk.injEq] at h
        rw [List.cons_append, scanToM]
        simp [← h.1, ← h.2]
      · simp only [scanToM, hc, ite_false] at h
        cases hsc : scanToM cs with
        | none => rw [hsc] at h; simp at h
        | some pr =>
            rw [hsc] at h
            simp at h
            rw [List.cons_append, scanToM]
            simp [hc, ih pr.1 (by rw [hsc, ← h.2])]
            rw [← h.1]

theorem parse_go_append_unterminated_aux :
    ∀ (n : ℕ) (u : List Char), u.length ≤ n → ∀ (v : List Char), 'm' ∉ v →
      ∀ (active : Option Fg),
        parse_go (u ++ '\x1b' :: '[' :: v) active = parse_go u active := by
  intro n
  induction n with
  | zero =>
      intro u hu v hv active
      have h0 : u = [] := List.eq_nil_of_length_eq_zero (Nat.le_zero.mp hu)
      subst h0
      simp only [List.nil_append]
      rw [parse_go_esc_none v active ((scanToM_eq_none_iff v).mpr hv), parse_go_nil]
  | succ n ih =>
      intro u hu v hv active
      cases u with
      | nil =>
          simp only [List.nil_append]
          rw [parse_go_esc_none v active ((scanToM_eq_none_iff v).mpr hv), parse_go_nil]
      | cons c rest =>
          by_cases h1 : c = '\x1b' ∧ rest.head? = some '['
          · obtain ⟨hc, hh⟩ := h1
            subst hc
            cases rest with
            | nil => simp at hh
            | cons r0 rest' =>
                simp only [List.head?_cons, Option.some.injEq] at hh
                subst hh
                cases hsc : scanToM rest' with
                | none =>
                    have hm : 'm' ∉ rest' := (scanToM_eq_none_iff rest').mp hsc
                    have hm2 : scanToM (rest' ++ '\x1b' :: '[' :: v) = none := by
                      rw [scanToM_eq_none_iff]
                      simp only [List.mem_append, List.mem_cons, not_or]
                      exact ⟨hm, by decide, by decide, hv⟩
                    rw [List.cons_append, List.cons_append,
                      parse_go_esc_none _ active hm2, parse_go_esc_none rest' active hsc]
                | some pr =>
                    obtain ⟨params, after⟩ := pr
                    have happ := scanToM_append_some rest' ('\x1b' :: '[' :: v) params after hsc
                    rw [List.cons_append, List.cons_append,
                      parse_go_esc_some _ params (after ++ '\x1b' :: '[' :: v) active happ,
                      parse_go_esc_some rest' params after active hsc]
                    apply ih
                    · have := scanToM_length rest' params after hsc
                      simp only [List.length_cons] at hu
                      omega
                    · exact hv
          · by_cases h2 : c = '\n'
            · subst h2
              rw [List.cons_append, parse_go_newline, parse_go_newline]
              exact ih rest (by simp only [List.length_cons] at hu; omega) v hv active
            · have hcond : ¬(c = '\x1b' ∧ (rest ++ '\x1b' :: '[' :: v).head? = some '[') := by
                rintro ⟨hc, hh⟩
                apply h1
                refine ⟨hc, ?_⟩
                cases rest with
                | nil => simp at hh
                | cons r rs => simpa using hh
              rw [List.cons_append, parse_go_glyph c _ active hcond h2,
                parse_go_glyph c rest active h1 h2,
                ih rest (by simp only [List.length_cons] at hu; omega) v hv active]

/-- C2 (amended): an escape sequence with an empty parameter list (`ESC [ m`)
is consumed from the stream without contributing glyphs, but — unlike the
claim — it leaves the active color unchanged; only the parameter list
`["0"]` resets the active color to `None`. -/
theorem C2_empty_params_keep_color :
    (∀ (rest : List Char) (active : Option Fg),
        parse_go ('\x1b' :: '[' :: 'm' :: rest) active = parse_go rest active) ∧
      ∀ (rest : List Char) (active : Option Fg),
        parse_go ('\x1b' :: '[' :: '0' :: 'm' :: rest) active = parse_go rest none := by
  constructor
  · intro rest active
    rw [parse_go_esc_some ('m' :: rest) [] rest active (by simp [scanToM])]
    simp [applySGR]
  · intro rest active
    rw [parse_go_esc_some ('0' :: 'm' :: rest) ['0'] rest active (by simp [scanToM])]
    simp [applySGR, splitSemis]

/-- C2 counterexample: in `ESC[38;5;1m a ESC[ m b`, the glyph `b` after the
empty-parameter sequence still carries `Indexed 1`: the empty parameter
list did not reset the active color to `None` as the claim states. -/
theorem C2_counterexample :
    parse_ansi_line
        ['\x1b', '[', '3', '8', ';', '5', ';', '1', 'm', 'a', '\x1b', '[', 'm', 'b'] =
      (['a', 'b'], [some (.ansi256 1), some (.ansi256 1)]) ∧
      some (Fg.ansi256 1) ≠ (none : Option Fg) := by
  constructor
  · simp [parse_ansi_line, parse_go_nil, parse_go_cons_esc, parse_go_glyph, scanToM,
      applySGR, splitSemis, intOfStr, parseDigitsGo]
    decide
  · simp

/-- C9: for a line with an escape introducer `ESC [` that is never closed by
`m`, decoding drops every character from the introducer to the end of the
line, keeps all glyphs decoded before it, and raises no error: the result
equals decoding the part before the introducer. -/
theorem C9_unterminated_introducer_drops_tail (u v : List Char) (hv : 'm' ∉ v) :
    parse_ansi_line (u ++ '\x1b' :: '[' :: v) = parse_ansi_line u :=
  parse_go_append_unterminated_aux u.length u le_rfl v hv none

theorem C9_witness :
    'm' ∉ (['x', 'y'] : List Char) ∧
      parse_ansi_line (['a', 'b'] ++ '\x1b' :: '[' :: ['x', 'y']) = parse_ansi_line ['a', 'b'] :=
  ⟨by decide, C9_unterminated_introducer_drops_tail ['a', 'b'] ['x', 'y'] (by decide)⟩

theorem digitChar_isDigit (n : ℕ) (h : n < 10) : (Nat.digitChar n).isDigit = true := by
  interval_cases n <;> decide

theorem digitChar_toNat (n : ℕ) (h : n < 10) : (Nat.digitChar n).toNat - 48 = n := by
  interval_cases n <;> decide

theorem strOfNatGo_isDigit (n : ℕ) : ∀ c ∈ strOfNatGo n, c.isDigit = true := by
  induction n using Nat.strong_induction_on with
  | _ n ih =>
      rw [strOfNatGo]
      split
      · rename_i h
        intro c hc
        simp only [List.mem_singleton] at hc
        subst hc
        exact digitChar_isDigit n h
      · rename_i h
        intro c hc
        rw [List.mem_append, List.mem_singleton] at hc
        rcases hc with hc | hc
        · exact ih (n / 10) (Nat.div_lt_self (by omega) (by norm_num)) c hc
        · subst hc
          exact digitChar_isDigit (n % 10) (Nat.mod_lt n (by norm_num))

theorem strOfNatGo_ne_nil (n : ℕ) : strOfNatGo n ≠ [] := by
  rw [strOfNatGo]
  split <;> simp

theorem parseDigitsGo_digit (c : Char) (rest : List Char) (acc : ℕ) (h : c.isDigit = true) :
    parseDigitsGo (c :: rest) acc = parseDigitsGo rest (acc * 10 + (c.toNat - 48)) := by
  simp only [parseDigitsGo, h, if_true]

theorem digitChar_not_pySpace (n : ℕ) (h : n < 10) : isPySpace (Nat.digitChar n) = false := by
  interval_cases n <;> decide

theorem strOfNatGo_not_pySpace (n : ℕ) : ∀ c ∈ strOfNatGo n, isPySpace c = false := by
  induction n using Nat.strong_induction_on with
  | _ n ih =>
      rw [strOfNatGo]
      split
      · rename_i h
        intro c hc
        simp only [List.mem_singleton] at hc
        subst hc
        exact digitChar_not_pySpace n h
      · rename_i h
        intro c hc
        rw [List.mem_append, List.mem_singleton] at hc
        rcases hc with hc | hc
        · exact ih (n / 10) (Nat.div_lt_self (by omega) (by norm_num)) c hc
        · subst hc
          exact digitChar_not_pySpace (n % 10) (Nat.mod_lt n (by norm_num))

theorem stripSpaces_eq_self (l : List Char) (h : ∀ c ∈ l, isPySpace c = false) :
    stripSpaces l = l := by
  have hd : ∀ (m : List Char), (∀ c ∈ m, isPySpace c = false) →
      m.dropWhile isPySpace = m := by
    intro m hm
    cases m with
    | nil => rfl
    | cons c t =>
        rw [List.dropWhile_cons, hm c (List.mem_cons_self c t)]
        simp
  rw [stripSpaces, hd l h, hd l.reverse (fun c hc => h c (List.mem_reverse.mp hc)),
    List.reverse_reverse]

theorem parseDigitsGo_strOfNatGo_append (n : ℕ) : ∀ (acc : ℕ) (ys : List Char),
    parseDigitsGo (strOfNatGo n ++ ys) acc =
      parseDigitsGo ys (acc * 10 ^ (strOfNatGo n).length + n) := by
  induction n using Nat.strong_induction_on with
  | _ n ih =>
      intro acc ys
      rw [strOfNatGo]
      split
      · rename_i h
        rw [List.singleton_append, parseDigitsGo_digit _ _ _ (digitChar_isDigit n h),
          digitChar_toNat n h]
        simp only [List.length_singleton, pow_one]
      · rename_i h
        rw [List.append_assoc, List.singleton_append,
          ih (n / 10) (Nat.div_lt_self (by omega) (by norm_num))]
        have h10 : n % 10 < 10 := Nat.mod_lt n (by norm_num)
        rw [parseDigitsGo_digit _ _ _ (digitChar_isDigit _ h10), digitChar_toNat _ h10]
        congr 1
        simp only [List.length_append, List.length_singleton]
        rw [pow_succ, ← mul_assoc]
        omega

theorem parseDigitsGo_strOfNatGo (n acc : ℕ) :
    parseDigitsGo (strOfNatGo n) acc = some (acc * 10 ^ (strOfNatGo n).length + n) := by
  have h := parseDigitsGo_strOfNatGo_append n acc []
  rw [List.append_nil] at h
  rw [h]
  rfl

theorem parseIntBody_strOfNatGo (n : ℕ) : parseIntBody (strOfNatGo n) = some n := by
  cases hs : strOfNatGo n with
  | nil => exact absurd hs (strOfNatGo_ne_nil _)
  | cons c cs =>
      have hdig : c.isDigit = true := strOfNatGo_isDigit n c (by rw [hs]; simp)
      simp only [parseIntBody, hdig, if_true, ← hs, parseDigitsGo_strOfNatGo]
      simp

theorem intOfStr_strOfInt (z : ℤ) : intOfStr (strOfInt z) = some z := by
  rw [strOfInt]
  split
  · rename_i hneg
    have hstrip : stripSpaces ('-' :: strOfNatGo z.natAbs) = '-' :: strOfNatGo z.natAbs := by
      apply stripSpaces_eq_self
      intro c hc
      rcases List.mem_cons.mp hc with rfl | hc
      · decide
      · exact strOfNatGo_not_pySpace _ c hc
    have habs : ((z.natAbs : ℤ)) = -z := by omega
    rw [intOfStr, hstrip]
    simp [parseIntBody_strOfNatGo, habs]
  · rename_i hpos
    have hstrip : stripSpaces (strOfNatGo z.toNat) = strOfNatGo z.toNat :=
      stripSpaces_eq_self _ (strOfNatGo_not_pySpace z.toNat)
    have htn : ((z.toNat : ℤ)) = z := by omega
    cases hs : strOfNatGo z.toNat with
    | nil => exact absurd hs (strOfNatGo_ne_nil _)
    | cons c cs =>
        have hdig : c.isDigit = true := strOfNatGo_isDigit z.toNat c (by rw [hs]; simp)
        have hc1 : c ≠ '-' := by
          intro hcc; rw [hcc] at hdig; exact absurd hdig (by decide)
        have hc2 : c ≠ '+' := by
          intro hcc; rw [hcc] at hdig; exact absurd hdig (by decide)
        rw [hs] at hstrip
        rw [intOfStr, hstrip]
        simp [hc1, hc2, parseIntBody, hdig, ← hs, parseDigitsGo_strOfNatGo, htn]

theorem strOfInt_chars (z : ℤ) : ∀ c ∈ strOfInt z, c.isDigit = true ∨ c = '-' := by
  rw [strOfInt]
  split
  · intro c hc
    rw [List.mem_cons] at hc
    rcases hc with hc | hc
    · right; exact hc
    · left; exact strOfNatGo_isDigit _ c hc
  · intro c hc
    left
    exact strOfNatGo_isDigit _ c hc

theorem splitSemis_no_semi (z : List Char) (hz : ';' ∉ z) : splitSemis z = [z] := by
  induction z with
  | nil => rfl
  | cons c cs ih =>
      simp only [List.mem_cons, not_or] at hz
      have hc : c ≠ ';' := fun h => hz.1 h.symm
      rw [splitSemis, if_neg hc, ih hz.2]

theorem splitSemis_append (x y : List Char) (hx : ';' ∉ x) :
    splitSemis (x ++ ';' :: y) = x :: splitSemis y := by
  induction x with
  | nil => simp [splitSemis]
  | cons c cs ih =>
      simp only [List.mem_cons, not_or] at hx
      have hc : c ≠ ';' := fun h => hx.1 h.symm
      rw [List.cons_append, splitSemis, if_neg hc, ih hx.2]

theorem parse_go_seq (params rest : List Char) (a : Option Fg) (hm : 'm' ∉ params) :
    parse_go ('\x1b' :: '[' :: params ++ 'm' :: rest) a =
      parse_go rest (applySGR (if params = [] then [] else splitSemis params) a) :=
  parse_go_esc_some (params ++ 'm' :: rest) params rest a (scanToM_append_m params rest hm)

theorem parse_go_reset (rest : List Char) (a : Option Fg) :
    parse_go (RESET ++ rest) a = parse_go rest none := by
  have h := parse_go_seq ['0'] rest a (by decide)
  simp only [List.cons_append, List.nil_append] at h
  simp only [RESET, List.cons_append, List.nil_append]
  rw [h]
  simp [splitSemis, applySGR]

theorem parse_go_glyphs_all (g : List Char) (a : Option Fg)
    (h : ∀ c ∈ g, c ≠ '\x1b' ∧ c ≠ '\n') :
    parse_go g a = (g, g.map fun _ => a) := by
  induction g with
  | nil => simp [parse_go_nil]
  | cons c cs ih =>
      have hc := h c (List.mem_cons_self c cs)
      rw [parse_go_glyph c cs a (fun hx => hc.1 hx.1) hc.2,
        ih fun x hx => h x (List.mem_cons_of_mem c hx)]
      simp

theorem splitSemis_38_5 (X : List Char) (hX : ';' ∉ X) :
    splitSemis ('3' :: '8' :: ';' :: '5' :: ';' :: X) = [['3', '8'], ['5'], X] := by
  have h1 := splitSemis_append ['3', '8'] ('5' :: ';' :: X) (by decide)
  have h2 := splitSemis_append ['5'] X (by decide)
  simp only [List.cons_append, List.nil_append] at h1 h2
  rw [h1, h2, splitSemis_no_semi X hX]

theorem splitSemis_38_2 (X Y Z : List Char) (hX : ';' ∉ X) (hY : ';' ∉ Y) (hZ : ';' ∉ Z) :
    splitSemis ('3' :: '8' :: ';' :: '2' :: ';' :: (X ++ ';' :: (Y ++ ';' :: Z))) =
      [['3', '8'], ['2'], X, Y, Z] := by
  have h1 := splitSemis_append ['3', '8'] ('2' :: ';' :: (X ++ ';' :: (Y ++ ';' :: Z))) (by decide)
  have h2 := splitSemis_append ['2'] (X ++ ';' :: (Y ++ ';' :: Z)) (by decide)
  simp only [List.cons_append, List.nil_append] at h1 h2
  rw [h1, h2, splitSemis_append X _ hX, splitSemis_append Y _ hY, splitSemis_no_semi Z hZ]

theorem strOfInt_no_semi (z : ℤ) : ';' ∉ strOfInt z := by
  intro hc
  rcases strOfInt_chars z ';' hc with h | h
  · exact absurd h (by decide)
  · exact absurd h (by decide)

theorem strOfInt_no_m (z : ℤ) : 'm' ∉ strOfInt z := by
  intro hc
  rcases strOfInt_chars z 'm' hc with h | h
  · exact absurd h (by decide)
  · exact absurd h (by decide)

theorem parse_go_color_code (fg : Fg) (rest : List Char) (a : Option Fg) :
    parse_go (color_code_from_fg (some fg) ++ rest) a = parse_go rest (some fg) := by
  cases fg with
  | ansi256 idx =>
      have hm : 'm' ∉ '3' :: '8' :: ';' :: '5' :: ';' :: strOfInt idx := by
        simp only [List.mem_cons, not_or]
        exact ⟨by decide, by decide, by decide, by decide, by decide, strOfInt_no_m idx⟩
      have h := parse_go_seq ('3' :: '8' :: ';' :: '5' :: ';' :: strOfInt idx) rest a hm
      simp only [List.cons_append] at h
      rw [color_code_from_fg]
      simp only [List.cons_append, List.nil_append, List.append_assoc, List.singleton_append]
      rw [h]
      have hsp := splitSemis_38_5 (strOfInt idx) (strOfInt_no_semi idx)
      simp only [List.cons_ne_nil, ite_false, hsp, applySGR, intOfStr_strOfInt]
      simp [applySGR, intOfStr_strOfInt]
  | truecolor r g b =>
      have hm : 'm' ∉ '3' :: '8' :: ';' :: '2' :: ';' ::
          (strOfInt r ++ ';' :: (strOfInt g ++ ';' :: strOfInt b)) := by
        simp only [List.mem_cons, List.mem_append, not_or]
        exact ⟨by decide, by decide, by decide, by decide, by decide,
          strOfInt_no_m r, by decide, strOfInt_no_m g, by decide, strOfInt_no_m b⟩
      have h := parse_go_seq ('3' :: '8' :: ';' :: '2' :: ';' ::
        (strOfInt r ++ ';' :: (strOfInt g ++ ';' :: strOfInt b))) rest a hm
      simp only [List.cons_append, List.append_assoc, List.cons_append] at h
      rw [color_code_from_fg]
      simp only [List.cons_append, List.nil_append, List.append_assoc, List.singleton_append]
      rw [h]
      have hsp := splitSemis_38_2 (strOfInt r) (strOfInt g) (strOfInt b)
        (strOfInt_no_semi r) (strOfInt_no_semi g) (strOfInt_no_semi b)
      simp only [List.cons_ne_nil, ite_false, hsp]
      simp [applySGR, intOfStr_strOfInt]

theorem applySGR_unrecognized (parts : List (List Char)) (active : Option Fg)
    (h0 : parts ≠ [['0']])
    (h5 : ¬(3 ≤ parts.length ∧ parts.getD 0 [] = ['3', '8'] ∧ parts.getD 1 [] = ['5'] ∧
      (intOfStr (parts.getD 2 [])).isSome))
    (h2 : ¬(5 ≤ parts.length ∧ parts.getD 0 [] = ['3', '8'] ∧ parts.getD 1 [] = ['2'] ∧
      (intOfStr (parts.getD 2 [])).isSome ∧ (intOfStr (parts.getD 3 [])).isSome ∧
      (intOfStr (parts.getD 4 [])).isSome)) :
    applySGR parts active = active := by
  simp only [applySGR]
  rw [if_neg h0]
  by_cases hb5 : 3 ≤ parts.length ∧ parts.getD 0 [] = ['3', '8'] ∧ parts.getD 1 [] = ['5']
  · rw [if_pos hb5]
    cases hi : intOfStr (parts.getD 2 []) with
    | none => rfl
    | some idx => exact absurd ⟨hb5.1, hb5.2.1, hb5.2.2, by rw [hi]; rfl⟩ h5
  · rw [if_neg hb5]
    by_cases hb2 : 5 ≤ parts.length ∧ parts.getD 0 [] = ['3', '8'] ∧ parts.getD 1 [] = ['2']
    · rw [if_pos hb2]
      cases hi2 : intOfStr (parts.getD 2 []) with
      | none => rfl
      | some r =>
          cases hi3 : intOfStr (parts.getD 3 []) with
          | none => rfl
          | some g =>
              cases hi4 : intOfStr (parts.getD 4 []) with
              | none => rfl
              | some b =>
                  exact absurd ⟨hb2.1, hb2.2.1, hb2.2.2, by rw [hi2]; rfl,
                    by rw [hi3]; rfl, by rw [hi4]; rfl⟩ h2
    · rw [if_neg hb2]

/-- C4 (amended): a terminated SGR sequence whose nonempty ASCII parameter
text does not split into `["0"]`, nor into a `38;5` form with at least 3
entries and a third entry accepted by `int()` (Python numeral: stripped
whitespace, optional sign, digits with underscores), nor into a `38;2` form
with at least 5 entries and entries 3–5 accepted by `int()`, is consumed
without contributing glyphs and leaves the prior active color unchanged.
(Unlike the claim's wording, a list with extra trailing parameters after a
valid `38;5;idx` or `38;2;r;g;b` prefix IS recognized and changes the
color, the extra entries being ignored; numerals with whitespace padding or
underscores, such as `" 10 "`, are accepted by `int()` and so do change the
color. Parameter text is restricted to the ASCII range, where `intOfStr`
agrees with Python `int()` exactly.) -/
theorem C4_unrecognized_sequence_ignored (params rest : List Char) (active : Option Fg)
    (hascii : ∀ c ∈ params, c.toNat < 128)
    (hm : 'm' ∉ params) (hne : params ≠ [])
    (h0 : splitSemis params ≠ [['0']])
    (h5 : ¬(3 ≤ (splitSemis params).length ∧
      (splitSemis params).getD 0 [] = ['3', '8'] ∧ (splitSemis params).getD 1 [] = ['5'] ∧
      (intOfStr ((splitSemis params).getD 2 [])).isSome))
    (h2 : ¬(5 ≤ (splitSemis params).length ∧
      (splitSemis params).getD 0 [] = ['3', '8'] ∧ (splitSemis params).getD 1 [] = ['2'] ∧
      (intOfStr ((splitSemis params).getD 2 [])).isSome ∧
      (intOfStr ((splitSemis params).getD 3 [])).isSome ∧
      (intOfStr ((splitSemis params).getD 4 [])).isSome)) :
    parse_go ('\x1b' :: '[' :: params ++ 'm' :: rest) active = parse_go rest active := by
  rw [parse_go_seq params rest active hm, if_neg hne,
    applySGR_unrecognized _ _ h0 h5 h2]

theorem C4_witness :
    ((∀ c ∈ (['9', '9'] : List Char), c.toNat < 128) ∧
        'm' ∉ (['9', '9'] : List Char) ∧ (['9', '9'] : List Char) ≠ [] ∧
        splitSemis ['9', '9'] ≠ [['0']] ∧
        ¬(3 ≤ (splitSemis ['9', '9']).length ∧
          (splitSemis ['9', '9']).getD 0 [] = ['3', '8'] ∧
          (splitSemis ['9', '9']).getD 1 [] = ['5'] ∧
          (intOfStr ((splitSemis ['9', '9']).getD 2 [])).isSome) ∧
        ¬(5 ≤ (splitSemis ['9', '9']).length ∧
          (splitSemis ['9', '9']).getD 0 [] = ['3', '8'] ∧
          (splitSemis ['9', '9']).getD 1 [] = ['2'] ∧
          (intOfStr ((splitSemis ['9', '9']).getD 2 [])).isSome ∧
          (intOfStr ((splitSemis ['9', '9']).getD 3 [])).isSome ∧
          (intOfStr ((splitSemis ['9', '9']).getD 4 [])).isSome)) ∧
      parse_go ('\x1b' :: '[' :: ['9', '9'] ++ 'm' :: ['x']) (some (.ansi256 3)) =
        parse_go ['x'] (some (.ansi256 3)) :=
  ⟨⟨by decide, by decide, by decide, by decide, by decide, by decide⟩,
    C4_unrecognized_sequence_ignored ['9', '9'] ['x'] (some (.ansi256 3))
      (by decide) (by decide) (by decide) (by decide) (by decide) (by decide)⟩

/-- C4 counterexample: the parameter list `["38","5","10","99"]` has extra
trailing parameters after a `38;5` prefix, yet the decoder accepts it and
sets the color to `Indexed 10` instead of leaving the prior color (`None`)
unchanged as the claim states. -/
theorem C4_counterexample :
    parse_ansi_line
        ['\x1b', '[', '3', '8', ';', '5', ';', '1', '0', ';', '9', '9', 'm', 'x'] =
      (['x'], [some (.ansi256 10)]) ∧ some (Fg.ansi256 10) ≠ (none : Option Fg) := by
  constructor
  · simp [parse_ansi_line, parse_go_nil, parse_go_cons_esc, parse_go_glyph, scanToM,
      applySGR, splitSemis, intOfStr, parseDigitsGo]
    decide
  · simp

/-- C5 counterexample: `ESC[38;5;300m x` makes the decoder produce
`Indexed 300`, whose index is outside `[0,255]`, contradicting the claimed
invariant that every produced component lies in `[0,255]`. -/
theorem C5_counterexample :
    parse_ansi_line ['\x1b', '[', '3', '8', ';', '5', ';', '3', '0', '0', 'm', 'x'] =
      (['x'], [some (.ansi256 300)]) ∧ ¬((300 : ℤ) ≤ 255) := by
  constructor
  · simp [parse_ansi_line, parse_go_nil, parse_go_cons_esc, parse_go_glyph, scanToM,
      applySGR, splitSemis, intOfStr, parseDigitsGo]
    decide
  · decide

/-- C5 (amended): every color state the decoder produces has one of the
shapes `None`, `TrueColor(r,g,b)` or `Indexed(idx)`, but the numeric
components are not clamped to `[0,255]`: for every integer `k` — negative
or above 255 — some input line decodes to a glyph colored `Indexed k`. -/
theorem C5_components_unbounded (k : ℤ) :
    ∃ ln : List Char, parse_ansi_line ln = (['x'], [some (.ansi256 k)]) := by
  refine ⟨color_code_from_fg (some (.ansi256 k)) ++ ['x'], ?_⟩
  rw [parse_ansi_line, parse_go_color_code, parse_go_glyphs_all ['x'] _ (by decide)]
  simp

/-- C7: encoder/decoder round trip: for every color of the form
`TrueColor(r,g,b)` or `Indexed(idx)`, decoding its emitted escape code
followed by plain glyph characters yields exactly those glyphs, each paired
with that color; decoding the reset code followed by glyphs yields the
glyphs paired with `None`. The emitted byte sequences are recognized
bit-for-bit by the parser. -/
theorem C7_encode_decode_roundtrip (fg : Fg) (g : List Char)
    (h : ∀ c ∈ g, c ≠ '\x1b' ∧ c ≠ '\n') :
    parse_ansi_line (color_code_from_fg (some fg) ++ g) = (g, g.map fun _ => some fg) ∧
      parse_ansi_line (RESET ++ g) = (g, g.map fun _ => none) := by
  constructor
  · rw [parse_ansi_line, parse_go_color_code, parse_go_glyphs_all g _ h]
  · rw [parse_ansi_line, parse_go_reset, parse_go_glyphs_all g _ h]

theorem C7_witness :
    (∀ c ∈ (['h', 'i'] : List Char), c ≠ '\x1b' ∧ c ≠ '\n') ∧
      (parse_ansi_line (color_code_from_fg (some (.truecolor 255 128 0)) ++ ['h', 'i']) =
          (['h', 'i'],
            [some (Fg.truecolor 255 128 0), some (Fg.truecolor 255 128 0)]) ∧
        parse_ansi_line (RESET ++ ['h', 'i']) = (['h', 'i'], [none, none])) := by
  refine ⟨by decide, ?_⟩
  have h := C7_encode_decode_roundtrip (.truecolor 255 128 0) ['h', 'i'] (by decide)
  simpa using h

/-- C8: identity fast path: whenever the effective scale lies within 1e-6 of
1.0 — in non-fit mode the effective scale is `max(0.01, scaleFactor)` —
`scale_lines` returns its input unchanged with no resampling pass. -/
theorem C8_identity_fast_path (lines : List (List Char)) (width height : ℕ) (scale : ℚ)
    (fit : Bool) (term : TermSize)
    (h : |effScale fit term width height scale - 1| < 1 / 1000000) :
    scale_lines lines width height scale fit term = some lines := by
  simp only [scale_lines]
  rw [if_pos h]

theorem C8_witness :
    |effScale false ⟨80, 24⟩ 4 3 1 - 1| < 1 / 1000000 ∧
      scale_lines [['a']] 4 3 1 false ⟨80, 24⟩ = some [['a']] :=
  ⟨by rw [effScale]; norm_num,
    C8_identity_fast_path [['a']] 4 3 1 false ⟨80, 24⟩ (by rw [effScale]; norm_num)⟩

theorem scaleRowGo_isSome (s : ℚ) (chars : List Char) (fgs : List (Option Fg))
    (hlen : fgs.length = chars.length) (hne : chars ≠ []) :
    ∀ (cos : List ℕ) (prev : Option Fg), ∃ out, scaleRowGo s chars fgs cos prev = some out := by
  intro cos
  induction cos with
  | nil => intro prev; exact ⟨[], rfl⟩
  | cons co cos ih =>
      intro prev
      have hpos : 0 < chars.length := List.length_pos.mpr hne
      have hlt : min (chars.length - 1) (ratToNatFloor ((co : ℚ) / s)) < chars.length := by
        omega
      have hltf : min (chars.length - 1) (ratToNatFloor ((co : ℚ) / s)) < fgs.length := by
        omega
      simp only [scaleRowGo, List.getElem?_eq_getElem hltf, List.getElem?_eq_getElem hlt]
      by_cases hfg : fgs[min (chars.length - 1) (ratToNatFloor ((co : ℚ) / s))] ≠ prev
      · rw [if_pos hfg]
        obtain ⟨t, ht⟩ := ih (fgs[min (chars.length - 1) (ratToNatFloor ((co : ℚ) / s))])
        rw [ht]
        exact ⟨_, rfl⟩
      · rw [if_neg hfg]
        obtain ⟨t, ht⟩ := ih prev
        rw [ht]
        exact ⟨_, rfl⟩

theorem scaleRows_isSome (parsed : List (List Char × List (Option Fg))) (s : ℚ)
    (hne : parsed ≠ []) (hlen : ∀ p ∈ parsed, p.2.length = p.1.length) :
    ∀ ros : List ℕ, ∃ out, scaleRows parsed s parsed.length ros = some out := by
  intro ros
  induction ros with
  | nil => exact ⟨[], rfl⟩
  | cons ro ros ih =>
      have hpos : 0 < parsed.length := List.length_pos.mpr hne
      have hlt : min (parsed.length - 1) (ratToNatFloor ((ro : ℚ) / s)) < parsed.length := by
        omega
      obtain ⟨rest, hrest⟩ := ih
      simp only [scaleRows, List.getElem?_eq_getElem hlt]
      set row := parsed[min (parsed.length - 1) (ratToNatFloor ((ro : ℚ) / s))] with hrow
      have hmem : row ∈ parsed := List.getElem_mem hlt
      by_cases hz : row.1.length = 0
      · rw [if_pos hz, hrest]
        exact ⟨_, rfl⟩
      · rw [if_neg hz]
        have hne1 : row.1 ≠ [] := fun h0 => hz (by rw [h0]; rfl)
        obtain ⟨body, hbody⟩ := scaleRowGo_isSome s row.1 row.2 (hlen row hmem) hne1
          (List.range (max 1 (ratToNatFloor ((row.1.length : ℚ) * s)))) none
        simp only [scale_row, hbody, hrest]
        exact ⟨_, rfl⟩

/-- C1 (amended): for degenerate geometry `scale_lines` returns normally via
the documented clamping/fallbacks — zero-length rows become reset-only
rows, non-positive scales are clamped — PROVIDED the frame has at least one
(possibly empty) line.  When the frame's list of lines is empty and the
effective scale is not within 1e-6 of 1, the metadata-height fallback makes
the target row range nonempty while no decoded row exists, and the row
lookup raises `IndexError` (see the counterexample). -/
theorem C1_nonempty_frame_total (lines : List (List Char)) (width height : ℕ)
    (scale : ℚ) (fit : Bool) (term : TermSize) (hne : lines ≠ []) :
    ∃ out, scale_lines lines width height scale fit term = some out := by
  simp only [scale_lines]
  by_cases hid : |effScale fit term width height scale - 1| < 1 / 1000000
  · rw [if_pos hid]
    exact ⟨lines, rfl⟩
  · rw [if_neg hid]
    have hp : lines.map parse_ansi_line ≠ [] := by simpa using hne
    have hsrc : (if (lines.map parse_ansi_line).length = 0 then max 1 height
        else (lines.map parse_ansi_line).length) = (lines.map parse_ansi_line).length :=
      if_neg (by simpa using hne)
    rw [hsrc]
    refine scaleRows_isSome (lines.map parse_ansi_line) _ hp ?_ _
    intro p hpmem
    obtain ⟨ln, _, hln⟩ := List.mem_map.mp hpmem
    rw [← hln]
    exact (parse_ansi_line_len ln).symm

theorem C1_witness :
    (([['a']] : List (List Char)) ≠ []) ∧
      ∃ out, scale_lines [['a']] 0 0 2 false ⟨80, 24⟩ = some out :=
  ⟨by decide, C1_nonempty_frame_total [['a']] 0 0 2 false ⟨80, 24⟩ (by decide)⟩

/-- C1 counterexample: a frame whose list of lines is empty, with nonzero
declared height and scale factor 2: the fallback height makes the target
row range nonempty, `parsed[rs]` is evaluated on the empty `parsed` list,
and `scale_lines` raises `IndexError` (modelled as `none`) instead of
returning normally as the claim states. -/
theorem C1_counterexample : scale_lines [] 0 5 2 false ⟨80, 24⟩ = none := by
  simp [scale_lines, effScale, ratToNatFloor, parse_ansi_line, parse_go]
  norm_num
  decide

/-- C6: on every exit of the playback loop — normal completion, an external
interrupt, or an error raised during rendering — the emitted event trace
ends with the reset code, the show-cursor code and a flush: the `finally`
cleanup is unconditional. (Interrupt delivery is modelled at iteration
granularity; `none` means the fuel bound was hit, i.e. the loop has not
exited.) -/
theorem C6_cleanup_always (frames : List Frame) (args : Args) (width height : ℕ)
    (term : TermSize) (interruptAfter : Option ℕ) (fuel : ℕ) (tr : List OutEvent)
    (h : mainPlayback frames args width height term interruptAfter fuel = some tr) :
    ∃ pre, tr = pre ++ [OutEvent.write RESET, OutEvent.write SHOW_CURSOR, OutEvent.flush] := by
  simp only [mainPlayback] at h
  cases hp : playLoop frames args width height term interruptAfter fuel 0 0 with
  | none => rw [hp] at h; cases h
  | some p =>
      rw [hp] at h
      simp only [Option.some.injEq] at h
      refine ⟨(OutEvent.write HIDE_CURSOR ::
        (if args.no_clear then [] else [OutEvent.write CLS]) ++
          [OutEvent.write HOME, OutEvent.flush]) ++ p.1, ?_⟩
      rw [← h, List.append_assoc]

theorem C6_witness :
    mainPlayback [⟨[['x']]⟩] ⟨false, 1, false, false⟩ 1 1 ⟨80, 24⟩ none 2 =
        some ([OutEvent.write HIDE_CURSOR, OutEvent.write CLS, OutEvent.write HOME,
          OutEvent.flush, OutEvent.write HOME, OutEvent.write ['x'],
          OutEvent.write ['\n'], OutEvent.flush] ++
          [OutEvent.write RESET, OutEvent.write SHOW_CURSOR, OutEvent.flush]) ∧
      ∃ pre, ([OutEvent.write HIDE_CURSOR, OutEvent.write CLS, OutEvent.write HOME,
          OutEvent.flush, OutEvent.write HOME, OutEvent.write ['x'],
          OutEvent.write ['\n'], OutEvent.flush] ++
          [OutEvent.write RESET, OutEvent.write SHOW_CURSOR, OutEvent.flush] :
            List OutEvent) =
        pre ++ [OutEvent.write RESET, OutEvent.write SHOW_CURSOR, OutEvent.flush] :=
  ⟨by norm_num [mainPlayback, playLoop]; simp,
    C6_cleanup_always [⟨[['x']]⟩] ⟨false, 1, false, false⟩ 1 1 ⟨80, 24⟩ none 2 _
      (by norm_num [mainPlayback, playLoop]; simp)⟩

theorem ratToNatFloor_div_two (n : ℕ) : ratToNatFloor ((n : ℚ) / 2) = n / 2 := by
  rw [ratToNatFloor, Int.floor_toNat]
  have h2 : ((2 : ℚ)) = ((2 : ℕ) : ℚ) := by norm_num
  rw [h2, Nat.floor_div_eq_div]

theorem ratToNatFloor_mul_two (n : ℕ) : ratToNatFloor ((n : ℚ) * 2) = 2 * n := by
  rw [ratToNatFloor]
  have hc : ((n : ℚ) * 2) = (((2 * n : ℕ)) : ℚ) := by push_cast; ring
  rw [hc, Int.floor_natCast]
  omega

theorem double_length {α : Type} (l : List α) :
    (l.flatMap fun a => [a, a]).length = 2 * l.length := by
  induction l with
  | nil => simp
  | cons a t ih =>
      simp only [List.flatMap_cons, List.length_append, List.length_cons, ih,
        List.length_nil]
      omega

theorem double_getElem {α : Type} (l : List α) (i : ℕ) :
    (l.flatMap fun a => [a, a])[i]? = l[i / 2]? := by
  induction l generalizing i with
  | nil => simp
  | cons a t ih =>
      rcases i with _ | _ | i
      · simp [List.flatMap_cons]
      · simp [List.flatMap_cons]
      · simp only [List.flatMap_cons, List.cons_append, List.nil_append,
          List.getElem?_cons_succ, ih]
        have hdiv : (i + 1 + 1) / 2 = i / 2 + 1 := by omega
        rw [hdiv, List.getElem?_cons_succ]

theorem double_mem {α : Type} (l : List α) (p : α) (h : p ∈ l.flatMap fun a => [a, a]) :
    p ∈ l := by
  simp only [List.mem_flatMap, List.mem_cons, List.not_mem_nil, or_false] at h
  obtain ⟨a, ha, hpa⟩ := h
  rcases hpa with rfl | rfl <;> exact ha

theorem transCount_double (fgs : List (Option Fg)) :
    ∀ prev, transCount (fgs.flatMap fun f => [f, f]) prev = transCount fgs prev := by
  induction fgs with
  | nil => intro prev; rfl
  | cons f fs ih =>
      intro prev
      have hstep : ((f :: fs).flatMap fun f => [f, f]) =
          f :: f :: (fs.flatMap fun f => [f, f]) := by simp
      rw [hstep]
      simp only [transCount]
      rw [ih f]
      simp

theorem transCount_runs (fgs : List (Option Fg)) (hne : fgs ≠ []) :
    transCount fgs none + (if fgs.head? = some none then 1 else 0) = specColorRuns fgs := by
  cases fgs with
  | nil => exact absurd rfl hne
  | cons f fs =>
      cases f with
      | none => simp [transCount, specColorRuns]; omega
      | some c => simp [transCount, specColorRuns]

theorem count_esc_strOfInt (z : ℤ) : (strOfInt z).count '\x1b' = 0 := by
  rw [List.count_eq_zero]
  intro hmem
  rcases strOfInt_chars z _ hmem with h | h
  · exact absurd h (by decide)
  · exact absurd h (by decide)

theorem escCount_code (fg : Fg) : escCount (color_code_from_fg (some fg)) = 1 := by
  cases fg with
  | truecolor r g b =>
      simp [escCount, color_code_from_fg, List.count_append, List.count_cons,
        count_esc_strOfInt]
  | ansi256 idx =>
      simp [escCount, color_code_from_fg, List.count_append, List.count_cons,
        count_esc_strOfInt]

theorem escCount_rleRender (cells : List (Char × Option Fg)) :
    ∀ prev, (∀ p ∈ cells, p.1 ≠ '\x1b') →
      escCount (rleRender cells prev) = transCount (cells.map Prod.snd) prev := by
  induction cells with
  | nil => intro prev _; rfl
  | cons p cells ih =>
      intro prev h
      obtain ⟨ch, fg⟩ := p
      have hch : ch ≠ '\x1b' := h (ch, fg) (List.mem_cons_self _ _)
      have ihc := ih fg (fun q hq => h q (List.mem_cons_of_mem _ hq))
      simp only [escCount] at ihc
      simp only [rleRender, List.map_cons, transCount, escCount, List.count_append,
        List.count_cons, ihc]
      have hch0 : (if (ch == '\x1b') = true then 1 else 0) = 0 := by simp [hch]
      rw [hch0]
      by_cases hfg : fg ≠ prev
      · rw [if_pos hfg, if_pos hfg]
        by_cases hn : fg = none
        · subst hn
          rw [if_pos rfl, (by decide : List.count '\x1b' RESET = 1)]
          omega
        · rw [if_neg hn]
          cases fg with
          | none => exact absurd rfl hn
          | some f =>
              have hc1 := escCount_code f
              simp only [escCount] at hc1
              rw [hc1]
              omega
      · rw [if_neg hfg, if_neg hfg]
        simp

theorem parse_go_rleRender (cells : List (Char × Option Fg)) :
    ∀ prev : Option Fg, (∀ p ∈ cells, p.1 ≠ '\x1b' ∧ p.1 ≠ '\n') →
      parse_go (rleRender cells prev ++ RESET) prev =
        (cells.map Prod.fst, cells.map Prod.snd) := by
  induction cells with
  | nil =>
      intro prev _
      have h := parse_go_reset [] prev
      rw [List.append_nil] at h
      simp only [rleRender, List.nil_append, List.map_nil]
      rw [h, parse_go_nil]
  | cons p cells ih =>
      intro prev h
      obtain ⟨ch, fg⟩ := p
      have hch := h (ch, fg) (List.mem_cons_self _ _)
      have ihc := ih fg (fun q hq => h q (List.mem_cons_of_mem _ hq))
      have hrle : rleRender ((ch, fg) :: cells) prev =
          (if fg ≠ prev then (if fg = none then RESET else color_code_from_fg fg)
            else []) ++ ch :: rleRender cells fg := rfl
      rw [hrle, List.append_assoc, List.cons_append, List.map_cons, List.map_cons]
      by_cases hfg : fg ≠ prev
      · rw [if_pos hfg]
        by_cases hn : fg = none
        · subst hn
          rw [if_pos rfl, parse_go_reset,
            parse_go_glyph ch _ none (fun hx => hch.1 hx.1) hch.2, ihc]
        · cases fg with
          | none => exact absurd rfl hn
          | some f =>
              rw [if_neg hn, parse_go_color_code f,
                parse_go_glyph ch _ (some f) (fun hx => hch.1 hx.1) hch.2, ihc]
      · have heq : fg = prev := not_not.mp hfg
        subst heq
        rw [if_neg hfg, List.nil_append,
          parse_go_glyph ch _ fg (fun hx => hch.1 hx.1) hch.2, ihc]

theorem range_map_cellAt_two (chars : List Char) (fgs : List (Option Fg))
    (hlen : fgs.length = chars.length) (hne : chars ≠ []) :
    (List.range (2 * chars.length)).map (cellAt 2 chars fgs) =
      (chars.zip fgs).flatMap fun p => [p, p] := by
  have hpos : 0 < chars.length := List.length_pos.mpr hne
  have hzlen : (chars.zip fgs).length = chars.length := by
    rw [List.length_zip, hlen]
    omega
  apply List.ext_getElem?
  intro i
  rw [List.getElem?_map, double_getElem]
  by_cases hi : i < 2 * chars.length
  · rw [List.getElem?_range hi]
    have hi2 : i / 2 < chars.length := by omega
    have hc : chars[i / 2]? = some chars[i / 2] := List.getElem?_eq_getElem hi2
    have hf : fgs[i / 2]? = some fgs[i / 2] := List.getElem?_eq_getElem (by omega)
    have hz : (chars.zip fgs)[i / 2]? = some (chars[i / 2], fgs[i / 2]) :=
      List.getElem?_zip_eq_some.mpr ⟨hc, hf⟩
    rw [hz]
    have hmap : Option.map (cellAt 2 chars fgs) (some i) = some (cellAt 2 chars fgs i) := rfl
    rw [hmap]
    simp only [cellAt, ratToNatFloor_div_two]
    have hmin : min (chars.length - 1) (i / 2) = i / 2 := by omega
    rw [hmin]
    have hgd1 : chars.getD (i / 2) ' ' = chars[i / 2] := by
      rw [List.getD_eq_getElem?_getD, hc]
      rfl
    have hgd2 : fgs.getD (i / 2) none = fgs[i / 2] := by
      rw [List.getD_eq_getElem?_getD, hf]
      rfl
    rw [hgd1, hgd2]
  · rw [List.getElem?_eq_none (by simpa [List.length_range] using hi),
      List.getElem?_eq_none (by rw [hzlen]; omega)]
    rfl

theorem getD_of_lt {α : Type} (l : List α) (i : ℕ) (d : α) (h : i < l.length) :
    l.getD i d = l[i] := by
  rw [List.getD_eq_getElem?_getD, List.getElem?_eq_getElem h]
  rfl

theorem scaleRowGo_eq_rleRender (s : ℚ) (chars : List Char) (fgs : List (Option Fg))
    (hlen : fgs.length = chars.length) (hne : chars ≠ []) :
    ∀ (cos : List ℕ) (prev : Option Fg),
      scaleRowGo s chars fgs cos prev =
        some (rleRender (cos.map (cellAt s chars fgs)) prev) := by
  intro cos
  induction cos with
  | nil => intro prev; rfl
  | cons co cos ih =>
      intro prev
      have hpos : 0 < chars.length := List.length_pos.mpr hne
      have hlt : min (chars.length - 1) (ratToNatFloor ((co : ℚ) / s)) < chars.length := by
        omega
      have hltf : min (chars.length - 1) (ratToNatFloor ((co : ℚ) / s)) < fgs.length := by
        omega
      have hc := List.getElem?_eq_getElem hlt
      have hf := List.getElem?_eq_getElem hltf
      have hcell : cellAt s chars fgs co =
          (chars[min (chars.length - 1) (ratToNatFloor ((co : ℚ) / s))],
            fgs[min (chars.length - 1) (ratToNatFloor ((co : ℚ) / s))]) := by
        simp only [cellAt]
        rw [getD_of_lt _ _ _ hlt, getD_of_lt _ _ _ hltf]
      rw [List.map_cons, hcell]
      have hrle : rleRender
          ((chars[min (chars.length - 1) (ratToNatFloor ((co : ℚ) / s))],
            fgs[min (chars.length - 1) (ratToNatFloor ((co : ℚ) / s))]) ::
              cos.map (cellAt s chars fgs)) prev =
          (if fgs[min (chars.length - 1) (ratToNatFloor ((co : ℚ) / s))] ≠ prev then
            (if fgs[min (chars.length - 1) (ratToNatFloor ((co : ℚ) / s))] = none then RESET
              else color_code_from_fg
                fgs[min (chars.length - 1) (ratToNatFloor ((co : ℚ) / s))])
            else []) ++
            chars[min (chars.length - 1) (ratToNatFloor ((co : ℚ) / s))] ::
              rleRender (cos.map (cellAt s chars fgs))
                fgs[min (chars.length - 1) (ratToNatFloor ((co : ℚ) / s))] := rfl
      rw [hrle]
      simp only [scaleRowGo, hc, hf]
      by_cases hfg : fgs[min (chars.length - 1) (ratToNatFloor ((co : ℚ) / s))] ≠ prev
      · rw [if_pos hfg, if_pos hfg, ih]
      · rw [if_neg hfg, if_neg hfg]
        have heq : fgs[min (chars.length - 1) (ratToNatFloor ((co : ℚ) / s))] = prev :=
          not_not.mp hfg
        rw [heq, ih]
        rfl

theorem scale_row_two (chars : List Char) (fgs : List (Option Fg))
    (hlen : fgs.length = chars.length) (hne : chars ≠ []) :
    scale_row 2 chars fgs =
      some (rleRender ((chars.zip fgs).flatMap fun p => [p, p]) none ++ RESET) := by
  have hpos : 0 < chars.length := List.length_pos.mpr hne
  have htw : max 1 (ratToNatFloor ((chars.length : ℚ) * 2)) = 2 * chars.length := by
    rw [ratToNatFloor_mul_two]
    omega
  simp only [scale_row, htw, scaleRowGo_eq_rleRender 2 chars fgs hlen hne,
    range_map_cellAt_two chars fgs hlen hne]

theorem scaleRows_pair_two (P : List Char × List (Option Fg)) (hne : P.1 ≠ [])
    (hlen : P.2.length = P.1.length) :
    scaleRows [P] 2 1 (List.range 2) =
      some [rleRender ((P.1.zip P.2).flatMap fun p => [p, p]) none ++ RESET,
        rleRender ((P.1.zip P.2).flatMap fun p => [p, p]) none ++ RESET] := by
  have hr : List.range 2 = [0, 1] := rfl
  have hz : ¬P.1.length = 0 := fun h0 => hne (List.length_eq_zero.mp h0)
  have h0 : ratToNatFloor (((0 : ℕ) : ℚ) / 2) = 0 := by
    rw [ratToNatFloor_div_two]
  have h1 : ratToNatFloor (((1 : ℕ) : ℚ) / 2) = 0 := by
    rw [ratToNatFloor_div_two]
  rw [hr]
  simp only [scaleRows, h0, h1, Nat.sub_self, Nat.min_self, Nat.zero_min, min_self,
    List.getElem?_cons_zero, scale_row_two P.1 P.2 hlen hne, if_neg hz]

theorem scale_lines_single_two (ln : List Char) (w h : ℕ) (term : TermSize)
    (hne : (parse_ansi_line ln).1 ≠ []) :
    scale_lines [ln] w h 2 false term =
      some [rleRender
          (((parse_ansi_line ln).1.zip (parse_ansi_line ln).2).flatMap fun p => [p, p])
          none ++ RESET,
        rleRender
          (((parse_ansi_line ln).1.zip (parse_ansi_line ln).2).flatMap fun p => [p, p])
          none ++ RESET] := by
  have hs : effScale false term w h 2 = 2 := by
    rw [effScale]
    simp only [Bool.false_eq_true, if_false]
    exact max_eq_right (by norm_num)
  have hlen : (parse_ansi_line ln).2.length = (parse_ansi_line ln).1.length :=
    (parse_ansi_line_len ln).symm
  simp only [scale_lines, hs]
  rw [if_neg (by norm_num : ¬(|(2 : ℚ) - 1| < 1 / 1000000))]
  simp only [List.map_cons, List.map_nil, List.length_cons, List.length_nil]
  have hif : (if (0 : ℕ) + 1 = 0 then max 1 h else 0 + 1) = 1 := by norm_num
  rw [hif]
  have htgt : max 1 (ratToNatFloor (((1 : ℕ) : ℚ) * 2)) = 2 := by
    rw [ratToNatFloor_mul_two]
    omega
  rw [htgt]
  exact scaleRows_pair_two (parse_ansi_line ln) hne hlen

theorem map_double {α β : Type} (f : α → β) (l : List α) :
    (l.flatMap fun a => [a, a]).map f = (l.map f).flatMap fun b => [b, b] := by
  induction l with
  | nil => rfl
  | cons a t ih => simp [ih]

/-- C3 (amended): resampling a nonempty decoded row (glyphs free of raw ESC
and newline bytes) with scale factor 2.0 produces a target row in which
each source cell appears in exactly 2 consecutive target cells (decoding
the output row yields every glyph and color doubled, hence width
`floor(W*2)`), and the number of emitted color-transition escape codes
(total ESC count minus the unconditional trailing reset) equals
`transCount` from a previously-emitted-color cursor that starts at `None` —
NOT at a sentinel distinct from every color: when the first cell's color is
`None` no reset is emitted for it, so the transition count is the number of
color runs minus one in that case, and equals the number of color runs only
when the first cell is colored. -/
theorem C3_resample_two (ln : List Char) (w h : ℕ) (term : TermSize)
    (hne : (parse_ansi_line ln).1 ≠ [])
    (hesc : ∀ c ∈ (parse_ansi_line ln).1, c ≠ '\x1b' ∧ c ≠ '\n') :
    ∃ row, scale_lines [ln] w h 2 false term = some [row, row] ∧
      parse_ansi_line row =
        ((parse_ansi_line ln).1.flatMap fun c => [c, c],
          (parse_ansi_line ln).2.flatMap fun f => [f, f]) ∧
      escCount row = transCount (parse_ansi_line ln).2 none + 1 ∧
      transCount (parse_ansi_line ln).2 none +
          (if (parse_ansi_line ln).2.head? = some none then 1 else 0) =
        specColorRuns (parse_ansi_line ln).2 := by
  have hlen : (parse_ansi_line ln).2.length = (parse_ansi_line ln).1.length :=
    (parse_ansi_line_len ln).symm
  have hcellmem : ∀ p ∈ ((parse_ansi_line ln).1.zip (parse_ansi_line ln).2).flatMap
      fun p => [p, p], p.1 ≠ '\x1b' ∧ p.1 ≠ '\n' := by
    intro p hp
    have hz := double_mem _ p hp
    exact hesc p.1 (List.of_mem_zip hz).1
  have hf1 : (((parse_ansi_line ln).1.zip (parse_ansi_line ln).2).flatMap
      fun p => [p, p]).map Prod.fst = (parse_ansi_line ln).1.flatMap fun c => [c, c] := by
    rw [map_double, List.map_fst_zip (parse_ansi_line ln).1 (parse_ansi_line ln).2 (by omega)]
  have hf2 : (((parse_ansi_line ln).1.zip (parse_ansi_line ln).2).flatMap
      fun p => [p, p]).map Prod.snd = (parse_ansi_line ln).2.flatMap fun f => [f, f] := by
    rw [map_double, List.map_snd_zip (parse_ansi_line ln).1 (parse_ansi_line ln).2 (by omega)]
  refine ⟨rleRender (((parse_ansi_line ln).1.zip (parse_ansi_line ln).2).flatMap
      fun p => [p, p]) none ++ RESET,
    scale_lines_single_two ln w h term hne, ?_, ?_, ?_⟩
  · have hpr := parse_go_rleRender
      (((parse_ansi_line ln).1.zip (parse_ansi_line ln).2).flatMap fun p => [p, p])
      none hcellmem
    calc parse_ansi_line (rleRender (((parse_ansi_line ln).1.zip
            (parse_ansi_line ln).2).flatMap fun p => [p, p]) none ++ RESET)
        = (((((parse_ansi_line ln).1.zip (parse_ansi_line ln).2).flatMap
              fun p => [p, p]).map Prod.fst),
            ((((parse_ansi_line ln).1.zip (parse_ansi_line ln).2).flatMap
              fun p => [p, p]).map Prod.snd)) := hpr
      _ = _ := by rw [hf1, hf2]
  · have h1 := escCount_rleRender
      (((parse_ansi_line ln).1.zip (parse_ansi_line ln).2).flatMap fun p => [p, p])
      none (fun p hp => (hcellmem p hp).1)
    rw [escCount, List.count_append, ← escCount, ← escCount, h1, hf2,
      transCount_double, (by decide : escCount RESET = 1)]
  · refine transCount_runs (parse_ansi_line ln).2 ?_
    intro h0
    rw [h0] at hlen
    exact hne (List.length_eq_zero.mp hlen.symm)

theorem C3_witness :
    ((parse_ansi_line ['a', 'b']).1 ≠ [] ∧
        ∀ c ∈ (parse_ansi_line ['a', 'b']).1, c ≠ '\x1b' ∧ c ≠ '\n') ∧
      ∃ row, scale_lines [['a', 'b']] 0 0 2 false ⟨80, 24⟩ = some [row, row] ∧
        parse_ansi_line row =
          ((parse_ansi_line ['a', 'b']).1.flatMap fun c => [c, c],
            (parse_ansi_line ['a', 'b']).2.flatMap fun f => [f, f]) ∧
        escCount row = transCount (parse_ansi_line ['a', 'b']).2 none + 1 ∧
        transCount (parse_ansi_line ['a', 'b']).2 none +
            (if (parse_ansi_line ['a', 'b']).2.head? = some none then 1 else 0) =
          specColorRuns (parse_ansi_line ['a', 'b']).2 :=
  ⟨⟨by simp [parse_ansi_line, parse_go], by simp [parse_ansi_line, parse_go]⟩,
    C3_resample_two ['a', 'b'] 0 0 ⟨80, 24⟩ (by simp [parse_ansi_line, parse_go])
      (by simp [parse_ansi_line, parse_go])⟩

/-- C3 counterexample: resampling the uncolored source row `"ab"` (one color
run, first cell's color `None`) at scale 2.0 yields `"aabb" ++ RESET` with
exactly one ESC byte — the trailing reset only. The number of emitted
color-transition codes is 0, not 1 = number of color runs: the
previously-emitted-color cursor starts at `None`, the same value as the
first cell's color, so the first cell's reset transition is skipped,
contradicting the claim's sentinel requirement. -/
theorem C3_counterexample :
    scale_lines [['a', 'b']] 0 0 2 false ⟨80, 24⟩ =
        some [['a', 'a', 'b', 'b'] ++ RESET, ['a', 'a', 'b', 'b'] ++ RESET] ∧
      escCount (['a', 'a', 'b', 'b'] ++ RESET) - 1 = 0 ∧
      specColorRuns [none, none] = 1 ∧
      parse_ansi_line ['a', 'b'] = (['a', 'b'], [none, none]) ∧
      escCount (['a', 'a', 'b', 'b'] ++ RESET) - 1 ≠ specColorRuns [none, none] := by
  refine ⟨?_, by decide, by decide, by simp [parse_ansi_line, parse_go], by decide⟩
  have h := scale_lines_single_two ['a', 'b'] 0 0 ⟨80, 24⟩
    (by simp [parse_ansi_line, parse_go])
  rw [h]
  simp only [show parse_ansi_line ['a', 'b'] = (['a', 'b'], [none, none]) from by
    simp [parse_ansi_line, parse_go]]
  decide

theorem count_double {α : Type} [DecidableEq α] (l : List α) (a : α) :
    (l.flatMap fun x => [x, x]).count a = 2 * l.count a := by
  induction l with
  | nil => simp
  | cons x t ih =>
      have hstep : ((x :: t).flatMap fun x => [x, x]) =
          x :: x :: (t.flatMap fun x => [x, x]) := by simp
      rw [hstep]
      simp only [List.count_cons, ih]
      omega

theorem escCount_rleRender_count (cells : List (Char × Option Fg)) :
    ∀ prev, escCount (rleRender cells prev) =
      transCount (cells.map Prod.snd) prev + (cells.map Prod.fst).count '\x1b' := by
  induction cells with
  | nil => intro prev; rfl
  | cons p cells ih =>
      intro prev
      obtain ⟨ch, fg⟩ := p
      have ihc := ih fg
      simp only [escCount] at ihc
      simp only [rleRender, List.map_cons, transCount, escCount, List.count_append,
        List.count_cons, List.count_nil, ihc]
      by_cases hfg : fg ≠ prev
      · rw [if_pos hfg, if_pos hfg]
        by_cases hn : fg = none
        · subst hn
          rw [if_pos rfl, (by decide : List.count '\x1b' RESET = 1)]
          omega
        · rw [if_neg hn]
          cases fg with
          | none => exact absurd rfl hn
          | some f =>
              have hc1 := escCount_code f
              simp only [escCount] at hc1
              rw [hc1]
              omega
      · rw [if_neg hfg, if_neg hfg]
        simp only [List.count_nil]
        omega

/-- C10: an ESC character that is not immediately followed by `[` (including
an ESC as the last character of the line) is not treated as an escape
introducer by the decoder: it is appended to the output as an ordinary
glyph paired with the currently active color (first conjunct). Such raw ESC
glyphs also survive into re-encoded resampler output: resampling a
nonempty decoded single-line frame at scale factor 2 yields rows whose
total ESC-byte count equals the emitted color-transition codes plus the
trailing reset plus two copies (nearest-neighbor doubling) of every raw ESC
glyph of the decoded source row (second conjunct). -/
theorem C10_lone_esc_is_glyph :
    (∀ (rest : List Char) (active : Option Fg), rest.head? ≠ some '[' →
        parse_go ('\x1b' :: rest) active =
          ('\x1b' :: (parse_go rest active).1, active :: (parse_go rest active).2)) ∧
      ∀ (ln : List Char) (w h : ℕ) (term : TermSize), (parse_ansi_line ln).1 ≠ [] →
        ∃ row, scale_lines [ln] w h 2 false term = some [row, row] ∧
          escCount row = transCount (parse_ansi_line ln).2 none +
            2 * ((parse_ansi_line ln).1.count '\x1b') + 1 := by
  constructor
  · intro rest active h
    apply parse_go_glyph
    · rintro ⟨_, hh⟩
      exact h hh
    · decide
  · intro ln w h term hne
    have hlen : (parse_ansi_line ln).2.length = (parse_ansi_line ln).1.length :=
      (parse_ansi_line_len ln).symm
    have hf1 : (((parse_ansi_line ln).1.zip (parse_ansi_line ln).2).flatMap
        fun p => [p, p]).map Prod.fst = (parse_ansi_line ln).1.flatMap fun c => [c, c] := by
      rw [map_double,
        List.map_fst_zip (parse_ansi_line ln).1 (parse_ansi_line ln).2 (by omega)]
    have hf2 : (((parse_ansi_line ln).1.zip (parse_ansi_line ln).2).flatMap
        fun p => [p, p]).map Prod.snd = (parse_ansi_line ln).2.flatMap fun f => [f, f] := by
      rw [map_double,
        List.map_snd_zip (parse_ansi_line ln).1 (parse_ansi_line ln).2 (by omega)]
    refine ⟨rleRender (((parse_ansi_line ln).1.zip (parse_ansi_line ln).2).flatMap
        fun p => [p, p]) none ++ RESET,
      scale_lines_single_two ln w h term hne, ?_⟩
    have h1 := escCount_rleRender_count
      (((parse_ansi_line ln).1.zip (parse_ansi_line ln).2).flatMap fun p => [p, p]) none
    rw [escCount, List.count_append, ← escCount, ← escCount, h1, hf2, transCount_double,
      hf1, count_double, (by decide : escCount RESET = 1)]

theorem C10_witness :
    ((['a'] : List Char).head? ≠ some '[' ∧ (parse_ansi_line ['\x1b', 'a']).1 ≠ []) ∧
      parse_go ['\x1b', 'a'] none =
        ('\x1b' :: (parse_go ['a'] none).1, none :: (parse_go ['a'] none).2) ∧
      ∃ row, scale_lines [['\x1b', 'a']] 0 0 2 false ⟨80, 24⟩ = some [row, row] ∧
        escCount row = transCount (parse_ansi_line ['\x1b', 'a']).2 none +
          2 * ((parse_ansi_line ['\x1b', 'a']).1.count '\x1b') + 1 :=
  ⟨⟨by decide, by simp [parse_ansi_line, parse_go]⟩,
    C10_lone_esc_is_glyph.1 ['a'] none (by decide),
    C10_lone_esc_is_glyph.2 ['\x1b', 'a'] 0 0 ⟨80, 24⟩ (by simp [parse_ansi_line, parse_go])⟩
